import Mathlib

/-!
Verification of the resume-builder program: the LaTeX special-character
escaping pass, the recursive record sanitizer, the interactive data
collectors, and the compile/cleanup stage of `main`.

Strings are modelled as Lean `String`/`List Char`; the interactive input
source is modelled as a list of lines; the external compiler is modelled
as a function from invocation index to its observable outcome.
-/

namespace ResumeBuilder

/-! ## The escaping table of `escape_latex_special_chars`

The Python function builds a combined regular expression from the ten
single-character patterns of `conv` (sorted stably by decreasing length,
which for ten length-one keys preserves the insertion order) and replaces
each match by its table entry via a literal-replacement lambda. -/

/-- The `conv` table of `escape_latex_special_chars`, in the order the
combined regex alternation lists the patterns. -/
def conv : List (List Char × List Char) :=
  [(['\\'], ['\\', '\\']),
   (['&'], ['\\', '&']),
   (['%'], ['\\', '%']),
   (['$'], ['\\', '$']),
   (['#'], ['\\', '#']),
   (['_'], ['\\', '_']),
   (['\x7b'], ['\\', '\x7b']),
   (['\x7d'], ['\\', '\x7d']),
   (['~'], "\\textasciitilde\x7b\x7d".data),
   (['^'], "\\textasciicircum\x7b\x7d".data)]

/-- Match a concrete pattern against a prefix of the input; on success
return the input that remains after the pattern. -/
def matchesAt : List Char → List Char → Option (List Char)
  | [], l => some l
  | _ :: _, [] => none
  | p :: ps, c :: cs => if p = c then matchesAt ps cs else none

/-- Try the alternatives of the combined regex in order at the current
position; on success return the replacement text and the remaining input
(leftmost alternative wins, as in the `re` module). -/
def matchAlt : List (List Char × List Char) → List Char → Option (List Char × List Char)
  | [], _ => none
  | (p, r) :: ps, l =>
    match matchesAt p l with
    | some rest => some (r, rest)
    | none => matchAlt ps l

/-- One left-to-right scan of `regex.sub`: at each position try the
alternation; on a match emit the replacement and continue after the match,
otherwise copy the character.  `fuel` bounds the number of scan steps; one
unit per input position suffices because every pattern of `conv` consumes
at least one character. -/
def regexSubFuel : Nat → List Char → List Char
  | 0, l => l
  | _ + 1, [] => []
  | fuel + 1, c :: rest =>
    match matchAlt conv (c :: rest) with
    | some (r, rest') => r ++ regexSubFuel fuel rest'
    | none => c :: regexSubFuel fuel rest

/-- `regex.sub(lambda m: conv[m.group()], text)` on the character list. -/
def regexSub (l : List Char) : List Char :=
  regexSubFuel l.length l

/-- `escape_latex_special_chars`: escape the special LaTeX characters of a
string by one combined substitution pass. -/
def escape_latex_special_chars (s : String) : String :=
  String.mk (regexSub s.data)

/-! ## Spec-side model of the escaping pass (for the refinement claim)

The spec describes the pass as a single simultaneous substitution: each
character is looked up in the table at most once and replacement text is
never rescanned. -/

/-- Look a single character up in the `conv` table. -/
def lookupConv (c : Char) : Option (List Char) :=
  (conv.find? (fun pr => pr.1 = [c])).map (fun pr => pr.2)

/-- Replacement for a single character: its table entry, or itself. -/
def substChar (c : Char) : List Char :=
  match lookupConv c with
  | some r => r
  | none => [c]

/-- Spec-side definition: the single simultaneous substitution pass, each
input character independently replaced by its table entry (or kept),
replacement text never itself substituted. -/
def simultaneousSubst (l : List Char) : List Char :=
  l.flatMap substChar

/-- The ten special characters. -/
def specialChars : List Char :=
  ['\\', '&', '%', '$', '#', '_', '\x7b', '\x7d', '~', '^']

/-- The replacement texts of the table. -/
def replacements : List (List Char) := conv.map (fun pr => pr.2)

/-- A character list is well escaped when it is a concatenation of tokens,
each token either a non-special character or one of the table's
replacement texts. -/
inductive WellEscaped : List Char → Prop where
  | nil : WellEscaped []
  | plain (c : Char) (l : List Char) : c ∉ specialChars → WellEscaped l →
      WellEscaped (c :: l)
  | esc (r : List Char) (l : List Char) : r ∈ replacements → WellEscaped l →
      WellEscaped (r ++ l)

/-! ### Key lemmas on the scan -/

/-- At any position the alternation matches exactly when the head character
is in the table, consuming exactly that character. -/
theorem matchAlt_conv_cons (c : Char) (rest : List Char) :
    matchAlt conv (c :: rest) =
      (lookupConv c).map (fun r => (r, rest)) := by
  by_cases h1 : c = '\\'
  · subst h1; rfl
  by_cases h2 : c = '&'
  · subst h2; rfl
  by_cases h3 : c = '%'
  · subst h3; rfl
  by_cases h4 : c = '$'
  · subst h4; rfl
  by_cases h5 : c = '#'
  · subst h5; rfl
  by_cases h6 : c = '_'
  · subst h6; rfl
  by_cases h7 : c = '\x7b'
  · subst h7; rfl
  by_cases h8 : c = '\x7d'
  · subst h8; rfl
  by_cases h9 : c = '~'
  · subst h9; rfl
  by_cases h10 : c = '^'
  · subst h10; rfl
  simp [matchAlt, matchesAt, conv, lookupConv, List.find?,
    h1, h2, h3, h4, h5, h6, h7, h8, h9, h10,
    Ne.symm h1, Ne.symm h2, Ne.symm h3, Ne.symm h4, Ne.symm h5,
    Ne.symm h6, Ne.symm h7, Ne.symm h8, Ne.symm h9, Ne.symm h10]

/-- With fuel at least the input length the scan computes the simultaneous
substitution. -/
theorem regexSubFuel_eq (fuel : Nat) (l : List Char) (h : l.length ≤ fuel) :
    regexSubFuel fuel l = simultaneousSubst l := by
  induction fuel generalizing l with
  | zero =>
    have : l = [] := List.length_eq_zero.mp (Nat.le_zero.mp h)
    subst this; rfl
  | succ n ih =>
    cases l with
    | nil => rfl
    | cons c rest =>
      simp only [List.length_cons, Nat.succ_le_succ_iff] at h
      cases hc : lookupConv c with
      | none =>
        simp [regexSubFuel, matchAlt_conv_cons, hc, simultaneousSubst, substChar,
          ih rest h]
      | some r =>
        simp [regexSubFuel, matchAlt_conv_cons, hc, simultaneousSubst, substChar,
          ih rest h]

/-- The combined-regex scan and the simultaneous substitution agree. -/
theorem regexSub_eq_simultaneousSubst (l : List Char) :
    regexSub l = simultaneousSubst l :=
  regexSubFuel_eq l.length l (Nat.le_refl _)

/-- A special character's replacement is a table replacement text, and no
replacement text contains a raw tilde or caret. -/
theorem substChar_special (c : Char) (h : c ∈ specialChars) :
    substChar c ∈ replacements ∧ '~' ∉ substChar c ∧ '^' ∉ substChar c := by
  simp only [specialChars, List.mem_cons, List.not_mem_nil, or_false] at h
  rcases h with rfl | rfl | rfl | rfl | rfl | rfl | rfl | rfl | rfl | rfl <;> decide

/-- A non-special character is kept unchanged. -/
theorem substChar_not_special (c : Char) (h : c ∉ specialChars) :
    substChar c = [c] := by
  simp only [specialChars, List.mem_cons, List.not_mem_nil, or_false, not_or] at h
  obtain ⟨h1, h2, h3, h4, h5, h6, h7, h8, h9, h10⟩ := h
  simp [substChar, lookupConv, conv, List.find?,
    Ne.symm h1, Ne.symm h2, Ne.symm h3, Ne.symm h4, Ne.symm h5,
    Ne.symm h6, Ne.symm h7, Ne.symm h8, Ne.symm h9, Ne.symm h10]

/-- The simultaneous substitution produces a well-escaped token list. -/
theorem wellEscaped_simultaneousSubst (l : List Char) :
    WellEscaped (simultaneousSubst l) := by
  induction l with
  | nil => exact .nil
  | cons c l ih =>
    have hcons : simultaneousSubst (c :: l) = substChar c ++ simultaneousSubst l := by
      simp [simultaneousSubst]
    rw [hcons]
    by_cases h : c ∈ specialChars
    · exact .esc _ _ (substChar_special c h).1 ih
    · rw [substChar_not_special c h]
      exact .plain c _ h ih

/-- The simultaneous substitution leaves no raw tilde or caret. -/
theorem no_raw_tilde_caret (l : List Char) :
    '~' ∉ simultaneousSubst l ∧ '^' ∉ simultaneousSubst l := by
  induction l with
  | nil => simp [simultaneousSubst]
  | cons c l ih =>
    have hcons : simultaneousSubst (c :: l) = substChar c ++ simultaneousSubst l := by
      simp [simultaneousSubst]
    rw [hcons]
    by_cases h : c ∈ specialChars
    · obtain ⟨-, h1, h2⟩ := substChar_special c h
      simp only [List.mem_append, not_or]
      exact ⟨⟨h1, ih.1⟩, ⟨h2, ih.2⟩⟩
    · rw [substChar_not_special c h]
      have ht : c ≠ '~' := fun hc => h (hc ▸ by decide)
      have hh : c ≠ '^' := fun hc => h (hc ▸ by decide)
      simp only [List.singleton_append, List.mem_cons, not_or]
      exact ⟨⟨fun hc => ht hc.symm, ih.1⟩, ⟨fun hc => hh hc.symm, ih.2⟩⟩

/-- C1: for every input string, the output of `escape_latex_special_chars`
is a concatenation of tokens that are either non-special characters or the
table's replacement texts — so no special character occurs unescaped — and
the output contains no raw `~` or `^` at all: each was replaced by its
literal-glyph escape sequence. -/
theorem escape_no_unescaped_specials (s : String) :
    WellEscaped (escape_latex_special_chars s).data ∧
    '~' ∉ (escape_latex_special_chars s).data ∧
    '^' ∉ (escape_latex_special_chars s).data := by
  have hd : (escape_latex_special_chars s).data = simultaneousSubst s.data := by
    simp [escape_latex_special_chars, regexSub_eq_simultaneousSubst]
  rw [hd]
  exact ⟨wellEscaped_simultaneousSubst _, no_raw_tilde_caret _⟩

/-- C2: the combined-regex scan equals the single simultaneous left-to-right
substitution in which every input character is looked up at most once and
replacement text is never itself substituted again; in particular the braces
inside the tilde replacement are emitted raw, not re-escaped. -/
theorem escape_is_single_pass (s : String) :
    escape_latex_special_chars s = String.mk (s.data.flatMap substChar) ∧
    escape_latex_special_chars "~" = "\\textasciitilde\x7b\x7d" := by
  constructor
  · have := regexSub_eq_simultaneousSubst s.data
    simp [escape_latex_special_chars, simultaneousSubst] at this ⊢
    exact congrArg String.mk this
  · decide

/-- C10: the escaping pass is not idempotent: escaping `"&"` once yields
`"\&"`, and escaping it again escapes the introduced backslash, yielding
a different string — a second sanitization pass corrupts the output. -/
theorem escape_not_idempotent :
    escape_latex_special_chars (escape_latex_special_chars "&") ≠
      escape_latex_special_chars "&" := by decide

/-! ## The nested record and `sanitize_data`

The resume record is a nested structure of dicts, lists, strings and other
leaf values (modelled by integers).  `sanitize_data` recurses into dict
values and list elements, escapes string leaves and returns any other leaf
unchanged. -/

/-- Nested data values: mappings, ordered sequences, strings, other leaves. -/
inductive Data where
  | dict : List (String × Data) → Data
  | list : List Data → Data
  | str : String → Data
  | other : Int → Data

mutual

/-- `sanitize_data`: recursively escape every string leaf. -/
def sanitize_data : Data → Data
  | .dict kvs => .dict (sanitizePairs kvs)
  | .list xs => .list (sanitizeList xs)
  | .str s => .str (escape_latex_special_chars s)
  | .other n => .other n

/-- The list comprehension `[sanitize_data(i) for i in data]`. -/
def sanitizeList : List Data → List Data
  | [] => []
  | x :: xs => sanitize_data x :: sanitizeList xs

/-- The dict comprehension `{k: sanitize_data(v) for k, v in data.items()}`:
keys are kept, values are sanitized. -/
def sanitizePairs : List (String × Data) → List (String × Data)
  | [] => []
  | (k, v) :: rest => (k, sanitize_data v) :: sanitizePairs rest

end

/-- The shape of a value: dict keys (in order) with the shapes of their
values, list element shapes, or a leaf marker. -/
inductive Shape where
  | dict : List (String × Shape) → Shape
  | list : List Shape → Shape
  | strLeaf : Shape
  | otherLeaf : Shape

mutual

/-- Compute the shape of a value. -/
def shapeOf : Data → Shape
  | .dict kvs => .dict (shapeOfPairs kvs)
  | .list xs => .list (shapeOfList xs)
  | .str _ => .strLeaf
  | .other _ => .otherLeaf

def shapeOfList : List Data → List Shape
  | [] => []
  | x :: xs => shapeOf x :: shapeOfList xs

def shapeOfPairs : List (String × Data) → List (String × Shape)
  | [] => []
  | (k, v) :: rest => (k, shapeOf v) :: shapeOfPairs rest

end

mutual

theorem shapeOf_sanitize : ∀ d : Data, shapeOf (sanitize_data d) = shapeOf d
  | .dict kvs => by
    rw [sanitize_data, shapeOf, shapeOf, shapeOfPairs_sanitize kvs]
  | .list xs => by
    rw [sanitize_data, shapeOf, shapeOf, shapeOfList_sanitize xs]
  | .str s => by rw [sanitize_data, shapeOf, shapeOf]
  | .other n => by rw [sanitize_data]

theorem shapeOfList_sanitize :
    ∀ xs : List Data, shapeOfList (sanitizeList xs) = shapeOfList xs
  | [] => rfl
  | x :: xs => by
    rw [sanitizeList, shapeOfList, shapeOfList, shapeOf_sanitize x,
      shapeOfList_sanitize xs]

theorem shapeOfPairs_sanitize :
    ∀ kvs : List (String × Data), shapeOfPairs (sanitizePairs kvs) = shapeOfPairs kvs
  | [] => rfl
  | (k, v) :: rest => by
    rw [sanitizePairs, shapeOfPairs, shapeOfPairs, shapeOf_sanitize v,
      shapeOfPairs_sanitize rest]

end

/-- C3: `sanitize_data` preserves the nested shape exactly — same dict keys
in order, same list lengths, same nesting — while string leaves are
transformed by `escape_latex_special_chars` and every other leaf is
returned unchanged. -/
theorem sanitize_preserves_shape :
    (∀ d : Data, shapeOf (sanitize_data d) = shapeOf d) ∧
    (∀ s : String, sanitize_data (.str s) = .str (escape_latex_special_chars s)) ∧
    (∀ n : Int, sanitize_data (.other n) = .other n) :=
  ⟨shapeOf_sanitize, fun s => by rw [sanitize_data], fun n => by rw [sanitize_data]⟩

/-! ## Records without special characters (identity of sanitization) -/

/-- A string with none of the ten special characters. -/
def noSpecials (s : String) : Bool :=
  s.data.all (fun c => decide (c ∉ specialChars))

mutual

/-- All string leaves of the value are free of special characters. -/
def cleanData : Data → Bool
  | .dict kvs => cleanPairs kvs
  | .list xs => cleanList xs
  | .str s => noSpecials s
  | .other _ => true

def cleanList : List Data → Bool
  | [] => true
  | x :: xs => cleanData x && cleanList xs

def cleanPairs : List (String × Data) → Bool
  | [] => true
  | (_, v) :: rest => cleanData v && cleanPairs rest

end

/-- The simultaneous substitution is the identity on character lists
without special characters. -/
theorem simultaneousSubst_id (l : List Char) (hall : ∀ c ∈ l, c ∉ specialChars) :
    simultaneousSubst l = l := by
  induction l with
  | nil => rfl
  | cons c l ih =>
    have hcons : simultaneousSubst (c :: l) = substChar c ++ simultaneousSubst l := by
      simp [simultaneousSubst]
    rw [hcons, substChar_not_special c (hall c (List.mem_cons_self c l)),
      ih (fun d hd => hall d (List.mem_cons_of_mem c hd))]
    rfl

/-- Escaping a string without special characters returns it unchanged. -/
theorem escape_of_noSpecials (s : String) (h : noSpecials s = true) :
    escape_latex_special_chars s = s := by
  have hall : ∀ c ∈ s.data, c ∉ specialChars := by
    intro c hc
    have := List.all_eq_true.mp h c hc
    exact of_decide_eq_true this
  have hsub : simultaneousSubst s.data = s.data := simultaneousSubst_id s.data hall
  calc escape_latex_special_chars s
      = String.mk (simultaneousSubst s.data) := by
        simp [escape_latex_special_chars, regexSub_eq_simultaneousSubst]
    _ = String.mk s.data := by rw [hsub]
    _ = s := rfl

mutual

theorem sanitize_clean : ∀ d : Data, cleanData d = true → sanitize_data d = d
  | .dict kvs => fun h => by
    rw [sanitize_data, sanitizePairs_clean kvs (by rwa [cleanData] at h)]
  | .list xs => fun h => by
    rw [sanitize_data, sanitizeList_clean xs (by rwa [cleanData] at h)]
  | .str s => fun h => by
    rw [sanitize_data, escape_of_noSpecials s (by rwa [cleanData] at h)]
  | .other n => fun _ => by rw [sanitize_data]

theorem sanitizeList_clean : ∀ xs : List Data, cleanList xs = true → sanitizeList xs = xs
  | [] => fun _ => rfl
  | x :: xs => fun h => by
    rw [cleanList, Bool.and_eq_true] at h
    rw [sanitizeList, sanitize_clean x h.1, sanitizeList_clean xs h.2]

theorem sanitizePairs_clean :
    ∀ kvs : List (String × Data), cleanPairs kvs = true → sanitizePairs kvs = kvs
  | [] => fun _ => rfl
  | (k, v) :: rest => fun h => by
    rw [cleanPairs, Bool.and_eq_true] at h
    rw [sanitizePairs, sanitize_clean v h.1, sanitizePairs_clean rest h.2]

end

/-- C4: on a record whose strings contain no special characters,
`sanitize_data` is the identity. -/
theorem sanitize_identity_on_clean (d : Data) (h : cleanData d = true) :
    sanitize_data d = d :=
  sanitize_clean d h

/-- Witness for C4 at a concrete clean record. -/
theorem sanitize_identity_on_clean_witness :
    cleanData (.dict [("name", .str "John Doe"),
      ("skills", .list [.str "Python", .other 3])]) = true ∧
    sanitize_data (.dict [("name", .str "John Doe"),
        ("skills", .list [.str "Python", .other 3])]) =
      .dict [("name", .str "John Doe"),
        ("skills", .list [.str "Python", .other 3])] := by
  have h : cleanData (.dict [("name", .str "John Doe"),
      ("skills", .list [.str "Python", .other 3])]) = true := by
    simp [cleanData, cleanPairs, cleanList, noSpecials, specialChars]
  exact ⟨h, sanitize_identity_on_clean _ h⟩

/-! ## Interactive input collection

The terminal is modelled as a list of input lines.  Reading a line
consumes the head; an exhausted list corresponds to end-of-input
(`input()` raising `EOFError`), so the collectors that have no handler for
it return `none` there.  Each collector returns its result together with
the unconsumed rest of the input. -/

/-- `get_list_input`: read lines until the first empty line; the items
before the terminator are the list, the terminator is dropped. -/
def get_list_input : List String → Option (List String × List String)
  | [] => none
  | line :: rest =>
    if line = "" then some ([], rest)
    else
      match get_list_input rest with
      | none => none
      | some (items, rest') => some (line :: items, rest')

/-- `collect_summary`'s loop: append every line until end-of-input. -/
def collect_summary_lines : List String → List String
  | [] => []
  | line :: rest => line :: collect_summary_lines rest

/-- `collect_summary`: join all lines read before end-of-input with a
single space. -/
def collect_summary (stream : List String) : String :=
  String.intercalate " " (collect_summary_lines stream)

/-- A work-experience / internship entry. -/
structure ExperienceEntry where
  role : String
  company : String
  start_date : String
  end_date : String
  description : List String
deriving DecidableEq

/-- An education entry. -/
structure EducationEntry where
  university : String
  degree : String
  gpa : String
  start_date : String
  end_date : String
deriving DecidableEq

/-- A project entry. -/
structure ProjectEntry where
  title : String
  tech : String
  date : String
  description : List String
deriving DecidableEq

/-- A publication entry. -/
structure PublicationEntry where
  title : String
  url : String
  venue : String
  date : String
  description : List String
deriving DecidableEq

/-- `get_list_input` consumes at least the terminator line. -/
theorem get_list_input_length :
    ∀ (l : List String) (items rest : List String),
      get_list_input l = some (items, rest) → rest.length < l.length := by
  intro l
  induction l with
  | nil => intro items rest h; simp [get_list_input] at h
  | cons line tail ih =>
    intro items rest h
    rw [get_list_input] at h
    by_cases hl : line = ""
    · simp only [hl, if_pos rfl] at h
      cases h
      simp
    · simp only [if_neg hl] at h
      cases htail : get_list_input tail with
      | none => rw [htail] at h; cases h
      | some pr =>
        rw [htail] at h
        cases pr with
        | mk items' rest' =>
          simp only at h
          cases h
          have := ih items' rest htail
          simp only [List.length_cons]
          omega

/-- `collect_experience`: loop — read the role; a blank role stops the
loop; otherwise read company, start date, end date, then the description
list, append the entry and loop again. -/
def collect_experience : List String → Option (List ExperienceEntry × List String)
  | [] => none
  | role :: rest =>
    if role = "" then some ([], rest)
    else
      match rest with
      | company :: start_date :: end_date :: rest2 =>
        match hg : get_list_input rest2 with
        | none => none
        | some (description, rest3) =>
          match collect_experience rest3 with
          | none => none
          | some (entries, rest4) =>
            some (⟨role, company, start_date, end_date, description⟩ :: entries, rest4)
      | _ => none
termination_by l => l.length
decreasing_by
  have := get_list_input_length rest2 description rest3 hg
  simp only [List.length_cons]
  omega

/-- `collect_internships`: same loop as `collect_experience`. -/
def collect_internships : List String → Option (List ExperienceEntry × List String)
  | [] => none
  | role :: rest =>
    if role = "" then some ([], rest)
    else
      match rest with
      | company :: start_date :: end_date :: rest2 =>
        match hg : get_list_input rest2 with
        | none => none
        | some (description, rest3) =>
          match collect_internships rest3 with
          | none => none
          | some (entries, rest4) =>
            some (⟨role, company, start_date, end_date, description⟩ :: entries, rest4)
      | _ => none
termination_by l => l.length
decreasing_by
  have := get_list_input_length rest2 description rest3 hg
  simp only [List.length_cons]
  omega

/-- `collect_education`: loop — read the university; blank stops; otherwise
read degree, gpa, start date, end date, append the entry and loop again. -/
def collect_education : List String → Option (List EducationEntry × List String)
  | [] => none
  | university :: rest =>
    if university = "" then some ([], rest)
    else
      match rest with
      | degree :: gpa :: start_date :: end_date :: rest2 =>
        match collect_education rest2 with
        | none => none
        | some (entries, rest3) =>
          some (⟨university, degree, gpa, start_date, end_date⟩ :: entries, rest3)
      | _ => none
termination_by l => l.length
decreasing_by
  simp only [List.length_cons]
  omega

/-- `collect_projects`: loop — read the title; blank stops; otherwise read
technologies, date, then the description list, append and loop again. -/
def collect_projects : List String → Option (List ProjectEntry × List String)
  | [] => none
  | title :: rest =>
    if title = "" then some ([], rest)
    else
      match rest with
      | tech :: date :: rest2 =>
        match hg : get_list_input rest2 with
        | none => none
        | some (description, rest3) =>
          match collect_projects rest3 with
          | none => none
          | some (entries, rest4) =>
            some (⟨title, tech, date, description⟩ :: entries, rest4)
      | _ => none
termination_by l => l.length
decreasing_by
  have := get_list_input_length rest2 description rest3 hg
  simp only [List.length_cons]
  omega

/-- `collect_publications`: loop — read the title; blank stops; otherwise
read url, venue, date, then the description list, append and loop again. -/
def collect_publications : List String → Option (List PublicationEntry × List String)
  | [] => none
  | title :: rest =>
    if title = "" then some ([], rest)
    else
      match rest with
      | url :: venue :: date :: rest2 =>
        match hg : get_list_input rest2 with
        | none => none
        | some (description, rest3) =>
          match collect_publications rest3 with
          | none => none
          | some (entries, rest4) =>
            some (⟨title, url, venue, date, description⟩ :: entries, rest4)
      | _ => none
termination_by l => l.length
decreasing_by
  have := get_list_input_length rest2 description rest3 hg
  simp only [List.length_cons]
  omega

/-- C6: `get_list_input` returns exactly the lines preceding the first
empty line, in order, without storing the terminator; a first empty line
yields the empty list (present, not absent). -/
theorem get_list_input_spec :
    (∀ stream : List String, "" ∈ stream →
      get_list_input stream =
        some (stream.takeWhile (fun l => l != ""),
          (stream.dropWhile (fun l => l != "")).tail)) ∧
    (∀ rest : List String, get_list_input ("" :: rest) = some ([], rest)) := by
  constructor
  · intro stream h
    induction stream with
    | nil => cases h
    | cons line tail ih =>
      by_cases hl : line = ""
      · subst hl
        simp [get_list_input, List.takeWhile, List.dropWhile]
      · have htail : "" ∈ tail := by
          cases List.mem_cons.mp h with
          | inl heq => exact absurd heq.symm hl
          | inr ht => exact ht
        rw [get_list_input, if_neg hl, ih htail]
        have hb : (line != "") = true := bne_iff_ne.mpr hl
        simp [List.takeWhile, List.dropWhile, hb]
  · intro rest
    simp [get_list_input]

/-- Witness for C6: a stream with two items before the terminator. -/
theorem get_list_input_spec_witness :
    get_list_input ["a", "b", "", "c"] = some (["a", "b"], ["c"]) := by
  have h := get_list_input_spec.1 ["a", "b", "", "c"] (by decide)
  exact h.trans (by decide)

/-- C7: the summary collector reads every line until end-of-input — a blank
line does not terminate it — and stores the single-space join of all lines;
on the two scenario lines it yields the expected joined summary. -/
theorem collect_summary_spec :
    (∀ stream : List String, collect_summary stream = String.intercalate " " stream) ∧
    collect_summary ["Engineer.", "Loves systems."] = "Engineer. Loves systems." := by
  have hlines : ∀ stream : List String, collect_summary_lines stream = stream := by
    intro stream
    induction stream with
    | nil => rfl
    | cons line rest ih => rw [collect_summary_lines, ih]
  constructor
  · intro stream
    rw [collect_summary, hlines]
  · rw [collect_summary, hlines]
    rfl

/-- C5: every repeated-entry collector stops at once on a blank key field,
yielding zero entries; otherwise the assembled entry is placed in front of
the entries of the remaining loop iterations, so entries appear in input
order and are never reordered. -/
theorem repeated_sections_spec :
    (∀ rest : List String, collect_experience ("" :: rest) = some ([], rest)) ∧
    (∀ rest : List String, collect_internships ("" :: rest) = some ([], rest)) ∧
    (∀ rest : List String, collect_education ("" :: rest) = some ([], rest)) ∧
    (∀ rest : List String, collect_projects ("" :: rest) = some ([], rest)) ∧
    (∀ rest : List String, collect_publications ("" :: rest) = some ([], rest)) ∧
    (∀ (role company start_date end_date : String)
       (rest2 description rest3 : List String)
       (entries : List ExperienceEntry) (rest4 : List String),
      role ≠ "" →
      get_list_input rest2 = some (description, rest3) →
      collect_experience rest3 = some (entries, rest4) →
      collect_experience (role :: company :: start_date :: end_date :: rest2) =
        some (⟨role, company, start_date, end_date, description⟩ :: entries, rest4)) ∧
    (∀ (title tech date : String) (rest2 description rest3 : List String)
       (entries : List ProjectEntry) (rest4 : List String),
      title ≠ "" →
      get_list_input rest2 = some (description, rest3) →
      collect_projects rest3 = some (entries, rest4) →
      collect_projects (title :: tech :: date :: rest2) =
        some (⟨title, tech, date, description⟩ :: entries, rest4)) := by
  refine ⟨fun rest => ?_, fun rest => ?_, fun rest => ?_, fun rest => ?_,
    fun rest => ?_, ?_, ?_⟩
  · rw [collect_experience.eq_def]; rfl
  · rw [collect_internships.eq_def]; rfl
  · rw [collect_education.eq_def]; rfl
  · rw [collect_projects.eq_def]; rfl
  · rw [collect_publications.eq_def]; rfl
  · intro role company start_date end_date rest2 description rest3 entries rest4
      hrole hg hrec
    rw [collect_experience.eq_def]
    simp only [if_neg hrole]
    split
    · rename_i heq
      rw [hg] at heq; cases heq
    · rename_i d r heq
      rw [hg] at heq; cases heq
      rw [hrec]
  · intro title tech date rest2 description rest3 entries rest4 htitle hg hrec
    rw [collect_projects.eq_def]
    simp only [if_neg htitle]
    split
    · rename_i heq
      rw [hg] at heq; cases heq
    · rename_i d r heq
      rw [hg] at heq; cases heq
      rw [hrec]

/-- Witness for C5: one experience entry followed by a blank role. -/
theorem repeated_sections_spec_witness :
    collect_experience ["Dev", "Acme", "May 2025", "Present", "Shipped", "", ""] =
      some ([⟨"Dev", "Acme", "May 2025", "Present", ["Shipped"]⟩], []) := by
  have h1 := repeated_sections_spec.1 ([] : List String)
  exact repeated_sections_spec.2.2.2.2.2.1 "Dev" "Acme" "May 2025" "Present"
    ["Shipped", "", ""] ["Shipped"] [""] [] [] (by decide) (by rfl) h1

/-! ## The compilation stage of `main`

`main` runs `pdflatex` in a `for i in range(2)` loop with `check=True`
inside `try`; `FileNotFoundError` and `CalledProcessError` are caught and
end the run, and the `finally` block always deletes the auxiliary files.
The compiler is modelled by a function from invocation index to observable
outcome; the working directory by the list of files present.  Outcomes of
the modelled compiler do not add files, matching that a compiler that
cannot be started produces nothing. -/

/-- Observable outcome of one `subprocess.run` attempt. -/
inductive RunOutcome where
  | notFound
  | exit (returncode : Nat) (stdout : String)
deriving DecidableEq

/-- How the compilation stage ends. -/
inductive CompileResult where
  | success
  | pdflatexNotFound
  | compileError (returncode : Nat) (stdout : String)
deriving DecidableEq

/-- The `for i in range(2)` loop with `check=True`: the result and the
number of `subprocess.run` attempts made. -/
def runCompilerLoop (compiler : Nat → RunOutcome) : CompileResult × Nat :=
  match compiler 0 with
  | .notFound => (.pdflatexNotFound, 1)
  | .exit c s =>
    if c ≠ 0 then (.compileError c s, 1)
    else
      match compiler 1 with
      | .notFound => (.pdflatexNotFound, 2)
      | .exit c2 s2 => if c2 ≠ 0 then (.compileError c2 s2, 2) else (.success, 2)

/-- The auxiliary files removed by the `finally` block. -/
def auxNames : List String := ["resume.aux", "resume.log", "resume.out"]

/-- The `finally` block: delete each auxiliary file if it exists. -/
def cleanupAux (files : List String) : List String :=
  files.filter (fun f => decide (f ∉ auxNames))

/-- The whole compilation stage: run the loop, then — on every path —
clean up the auxiliary files. -/
def compileStage (compiler : Nat → RunOutcome) (files : List String) :
    CompileResult × Nat × List String :=
  let res := runCompilerLoop compiler
  (res.1, res.2, cleanupAux files)

/-- C8: the compiler is invoked at most twice, and a non-zero exit of the
first invocation prevents the second and ends the stage with that exit
code and captured standard output. -/
theorem compile_twice_abort_on_failure :
    (∀ compiler : Nat → RunOutcome, (runCompilerLoop compiler).2 ≤ 2) ∧
    (∀ (compiler : Nat → RunOutcome) (c : Nat) (s : String),
      compiler 0 = .exit c s → c ≠ 0 →
      runCompilerLoop compiler = (.compileError c s, 1)) := by
  constructor
  · intro compiler
    cases h0 : compiler 0 with
    | notFound => simp [runCompilerLoop, h0]
    | exit c s =>
      by_cases hc : c = 0
      · subst hc
        cases h1 : compiler 1 with
        | notFound => simp [runCompilerLoop, h0, h1]
        | exit c2 s2 =>
          by_cases hc2 : c2 = 0
          · subst hc2; simp [runCompilerLoop, h0, h1]
          · simp [runCompilerLoop, h0, h1, hc2]
      · simp [runCompilerLoop, h0, hc]
  · intro compiler c s h0 hc
    simp [runCompilerLoop, h0, hc]

/-- Witness for C8: a compiler failing with exit code 1 on the first run. -/
theorem compile_twice_abort_on_failure_witness :
    runCompilerLoop (fun _ => .exit 1 "latex error") =
      (.compileError 1 "latex error", 1) :=
  compile_twice_abort_on_failure.2 (fun _ => .exit 1 "latex error") 1
    "latex error" rfl (by decide)

/-- C9: on every exit path of the compilation stage the auxiliary files
`resume.aux`, `resume.log`, `resume.out` are removed; when the compiler
executable is absent the stage reports not-found, creates nothing — so no
PDF appears — and still removes pre-existing auxiliary files. -/
theorem cleanup_on_every_path :
    (∀ (compiler : Nat → RunOutcome) (files : List String) (a : String),
      a ∈ auxNames → a ∉ (compileStage compiler files).2.2) ∧
    (∀ (compiler : Nat → RunOutcome) (files : List String),
      (compileStage compiler files).2.2 =
        files.filter (fun f => decide (f ∉ auxNames))) ∧
    (∀ (compiler : Nat → RunOutcome) (files : List String),
      compiler 0 = .notFound →
      (compileStage compiler files).1 = .pdflatexNotFound ∧
      (compileStage compiler files).2.2 ⊆ files ∧
      ("resume.pdf" ∉ files → "resume.pdf" ∉ (compileStage compiler files).2.2)) := by
  refine ⟨?_, ?_, ?_⟩
  · intro compiler files a ha hmem
    rw [compileStage] at hmem
    simp only [cleanupAux, List.mem_filter, decide_eq_true_eq] at hmem
    exact hmem.2 ha
  · intro compiler files
    rfl
  · intro compiler files h0
    refine ⟨by simp [compileStage, runCompilerLoop, h0], ?_, ?_⟩
    · intro a ha
      rw [compileStage] at ha
      simp only [cleanupAux, List.mem_filter] at ha
      exact ha.1
    · intro hpdf hmem
      rw [compileStage] at hmem
      simp only [cleanupAux, List.mem_filter] at hmem
      exact hpdf hmem.1

/-- Witness for C9: compiler absent, a stale aux file present. -/
theorem cleanup_on_every_path_witness :
    (compileStage (fun _ => .notFound) ["resume.aux", "resume.tex"]).1 =
      .pdflatexNotFound ∧
    (compileStage (fun _ => .notFound) ["resume.aux", "resume.tex"]).2.2 =
      ["resume.tex"] ∧
    "resume.aux" ∉ (compileStage (fun _ => .notFound) ["resume.aux", "resume.tex"]).2.2 := by
  refine ⟨(cleanup_on_every_path.2.2 (fun _ => .notFound)
      ["resume.aux", "resume.tex"] rfl).1, ?_, ?_⟩
  · exact (cleanup_on_every_path.2.1 (fun _ => .notFound)
      ["resume.aux", "resume.tex"]).trans (by decide)
  · exact cleanup_on_every_path.1 (fun _ => .notFound)
      ["resume.aux", "resume.tex"] "resume.aux" (by decide)

end ResumeBuilder
